import Mathlib

/-!
Verification of the DMS-AE-DAA data-processing core
(`Data_Processing(VIX).py`, `Data_Processing(Indices_and_yields).py`).

Dates are modelled as naturals (an ordinal encoding of trading dates:
comparisons and day-count differences are all the source uses) and
settlement prices as rationals.  A per-contract time series is a list of
(date, close) pairs in index order, as in the source DataFrames.

The pandas index idioms the source relies on are modelled exactly,
including their edge behaviour:
* `df.iloc[:-r]` is the empty frame when `r = 0`;
* `index[-r]` is `index[0]` when `r = 0`, and raises (here: `none`)
  on an empty index or when `r` exceeds the length;
* `index[-1]` raises on an empty index.
-/

namespace DMS

abbrev Series := List (ℕ × ℚ)

/-- `df.iloc[:-r]` on a frame with rows `l`: drops the trailing `r` rows;
for `r = 0` this is `iloc[:0]`, the empty frame. -/
def ilocDropLast (r : ℕ) (l : List (ℕ × ℚ)) : List (ℕ × ℚ) :=
  if r = 0 then [] else l.take (l.length - r)

/-- Last element of a list (`index[-1]` evaluates this on the index);
`none` models the `IndexError` on an empty index. -/
def lastElem {α : Type} : List α → Option α
  | [] => none
  | [x] => some x
  | _ :: y :: ys => lastElem (y :: ys)

/-- `df.index[-1]`: the last date of a series. -/
def lastDate (s : Series) : Option ℕ :=
  (lastElem s).map Prod.fst

/-- `l[-r]` in Python indexing: `l[0]` for `r = 0`, the `r`-th element from
the end for `1 ≤ r ≤ l.length`, and an `IndexError` (`none`) otherwise. -/
def idxFromEnd {α : Type} (r : ℕ) (l : List α) : Option α :=
  if l.length = 0 then none
  else if r = 0 then l[0]?
  else if r ≤ l.length then l[l.length - r]? else none

/-- `df.index[-r]` on a series: the date `r` positions from the end. -/
def indexNeg (r : ℕ) (s : Series) : Option ℕ :=
  (idxFromEnd r s).map Prod.fst

/-! ## Chain Stitcher: `___concatenate_front_month` -/

/-- Loop body of `___concatenate_front_month`: for each remaining contract,
truncate its trailing `r` rows, keep the rows dated strictly after the last
date already accumulated, append, and refresh the last date. -/
def fmGo (r : ℕ) : List Series → Series → ℕ → Option Series
  | [], acc, _ => some acc
  | c :: cs, acc, last =>
    let acc2 := acc ++ (ilocDropLast r c).filter (fun x => last < x.1)
    match lastDate acc2 with
    | none => none
    | some l2 => fmGo r cs acc2 l2

/-- `___concatenate_front_month`: start from the first contract minus its
trailing `r` rows, then repeatedly append later contracts' truncated rows
dated strictly after the last date already included. -/
def concatenate_front_month (r : ℕ) (chain : List Series) : Option Series :=
  match chain with
  | [] => none
  | c0 :: rest =>
    let acc0 := ilocDropLast r c0
    match lastDate acc0 with
    | none => none
    | some d0 => fmGo r rest acc0 d0

/-! ## Chain Stitcher: `___concatenate_other_months` -/

/-- Loop body of `___concatenate_other_months` over the index range
`range(contract_month, len(ordered_identifiers))`: contract `i` is filtered
to dates strictly below `index[-r]` of the front-month contract
`i - (contract_month - 1)` and strictly above the last accumulated date. -/
def omGo (r k : ℕ) (chain : List Series) : List ℕ → Series → ℕ → Option Series
  | [], acc, _ => some acc
  | i :: is, acc, last =>
    match chain[i - (k - 1)]? with
    | none => none
    | some fc =>
      match indexNeg r fc with
      | none => none
      | some fme =>
        match chain[i]? with
        | none => none
        | some ci =>
          let acc2 := acc ++ (ci.filter (fun x => x.1 < fme)).filter (fun x => last < x.1)
          match lastDate acc2 with
          | none => none
          | some l2 => omGo r k chain is acc2 l2

/-- `___concatenate_other_months` for `contract_month = k`: the initial
segment is contract `k-1` (0-based) filtered below `index[-r]` of contract
`0`; the loop then walks indices `k .. len-1`. -/
def concatenate_other_months (r k : ℕ) (chain : List Series) : Option Series :=
  match chain[0]? with
  | none => none
  | some c0 =>
    match indexNeg r c0 with
    | none => none
    | some fme =>
      match chain[k - 1]? with
      | none => none
      | some cand =>
        let seg0 := cand.filter (fun x => x.1 < fme)
        match lastDate seg0 with
        | none => none
        | some last0 => omGo r k chain (List.range' k (chain.length - k)) seg0 last0

/-- Modelled from the spec statement of the rank-k roll rule for comparison
with `concatenate_other_months`: the boundary for the segment drawing on
contract `i` is taken from front-month contract `i - (k - 2)` (and hence,
for the initial segment drawing on contract `k`, from contract `2`,
0-based index `1`), exactly as the claim's formula reads with one uniform
contract numbering. -/
def omGoClaim (r k : ℕ) (chain : List Series) : List ℕ → Series → ℕ → Option Series
  | [], acc, _ => some acc
  | i :: is, acc, last =>
    match chain[i - (k - 2)]? with
    | none => none
    | some fc =>
      match indexNeg r fc with
      | none => none
      | some fme =>
        match chain[i]? with
        | none => none
        | some ci =>
          let acc2 := acc ++ (ci.filter (fun x => x.1 < fme)).filter (fun x => last < x.1)
          match lastDate acc2 with
          | none => none
          | some l2 => omGoClaim r k chain is acc2 l2

/-- Modelled from the spec: rank-k stitching with the claim's
`i - (k - 2)` boundary formula (initial boundary from the second
contract). -/
def concatenate_other_months_claim (r k : ℕ) (chain : List Series) : Option Series :=
  match chain[1]? with
  | none => none
  | some c1 =>
    match indexNeg r c1 with
    | none => none
    | some fme =>
      match chain[k - 1]? with
      | none => none
      | some cand =>
        let seg0 := cand.filter (fun x => x.1 < fme)
        match lastDate seg0 with
        | none => none
        | some last0 =>
          omGoClaim r k chain (List.range' k (chain.length - k)) seg0 last0

/-- Dispatch of `__concatenate_contracts` on `contract_month`. -/
def concatenate_contracts (r k : ℕ) (chain : List Series) : Option Series :=
  if k = 1 then concatenate_front_month r chain else concatenate_other_months r k chain

/-- `~df.index.duplicated()`: keep the first row of each date. -/
def dedupGo : Series → List ℕ → Series
  | [], _ => []
  | x :: xs, seen => if x.1 ∈ seen then dedupGo xs seen else x :: dedupGo xs (x.1 :: seen)

/-- Drop duplicate dates, keeping the first occurrence. -/
def dedupByDate (s : Series) : Series := dedupGo s []

/-- `_process_maturity_data`: stitch one series per maturity rank
`1 .. maxK` and drop duplicate dates from each. -/
def process_maturity_data (r maxK : ℕ) (chain : List Series) : Option (List Series) :=
  (List.range' 1 maxK).mapM (fun k => (concatenate_contracts r k chain).map dedupByDate)

/-! ## Contract Chain: identifier handling and ordering

Identifiers are modelled as lists of character codes.  The source extracts
the trailing `date_str_pos = 10` characters of each identifier and sorts
contracts by that raw substring; it contains no date parser and no
duplicate check. -/

abbrev Ident := List ℕ

def date_str_pos : ℕ := 10

/-- `identifier[-self.date_str_pos:]`: the trailing 10 characters (the whole
identifier when it is shorter). -/
def suffix10 (s : Ident) : Ident := s.drop (s.length - date_str_pos)

/-- `_extract_date_from_contract_identifier`: collect the raw trailing
substrings, in input order. -/
def extract_date_from_contract_identifier (idents : List Ident) : List Ident :=
  idents.map suffix10

/-- Stable insertion of `x` after all entries `y` with `le y x`, as a
Python `list.sort` step. -/
def listInsert {α : Type} (le : α → α → Bool) (x : α) : List α → List α
  | [] => [x]
  | y :: ys => if le y x then y :: listInsert le x ys else x :: y :: ys

/-- Sorting as Python's `list.sort` (any stable comparison sort; the
theorems below use only that the result is a permutation). -/
def listSort {α : Type} (le : α → α → Bool) : List α → List α
  | [] => []
  | x :: xs => listInsert le x (listSort le xs)

/-- Lexicographic comparison of character-code lists, as Python string
comparison. -/
def lexLe : List ℕ → List ℕ → Bool
  | [], _ => true
  | _ :: _, [] => false
  | a :: as, b :: bs => if a < b then true else if b < a then false else lexLe as bs

/-- `_order_contracts_based_on_dates`: sort the extracted substrings, then
for each (in sorted order) append every identifier whose trailing substring
equals it. -/
def order_contracts_based_on_dates (idents : List Ident) : List Ident :=
  (listSort lexLe (extract_date_from_contract_identifier idents)).flatMap
    (fun d => idents.filter (fun x => suffix10 x = d))

/-- Modelled from the spec: the source has no date parser, so the spec's
"substring parses as a date" condition is rendered here as a check that the
10 characters follow the ISO-like `yyyy-mm-dd` layout with a month in
`1..12` and a day in `1..31` (codes 45 and 48..57 are the dash and the
digits). -/
def parsesAsDate : Ident → Bool
  | [y1, y2, y3, y4, h1, m1, m2, h2, d1, d2] =>
    (48 ≤ y1 && y1 ≤ 57) && (48 ≤ y2 && y2 ≤ 57) &&
    (48 ≤ y3 && y3 ≤ 57) && (48 ≤ y4 && y4 ≤ 57) &&
    (h1 = 45) && (h2 = 45) &&
    (48 ≤ m1 && m1 ≤ 57) && (48 ≤ m2 && m2 ≤ 57) &&
    (48 ≤ d1 && d1 ≤ 57) && (48 ≤ d2 && d2 ≤ 57) &&
    (1 ≤ (m1 - 48) * 10 + (m2 - 48) && (m1 - 48) * 10 + (m2 - 48) ≤ 12) &&
    (1 ≤ (d1 - 48) * 10 + (d2 - 48) && (d1 - 48) * 10 + (d2 - 48) ≤ 31)
  | _ => false

/-! ## Slope Estimator

`sklearn.linear_model.LinearRegression(fit_intercept=True).fit(X, y)` is an
external library call; it is modelled by the standard closed-form ordinary
least-squares slope (the optimality theorem below shows this closed form is
the least-squares minimiser, and with one sample it is `0`, which is also
what the centred `lstsq` inside sklearn returns there).  A fit on zero
samples raises in sklearn, modelled as `none` at the call sites. -/

def sumX (pts : List (ℚ × ℚ)) : ℚ := (pts.map (fun p => p.1)).sum

def sumY (pts : List (ℚ × ℚ)) : ℚ := (pts.map (fun p => p.2)).sum

def sumXX (pts : List (ℚ × ℚ)) : ℚ := (pts.map (fun p => p.1 * p.1)).sum

def sumXY (pts : List (ℚ × ℚ)) : ℚ := (pts.map (fun p => p.1 * p.2)).sum

def sumYY (pts : List (ℚ × ℚ)) : ℚ := (pts.map (fun p => p.2 * p.2)).sum

def nQ (pts : List (ℚ × ℚ)) : ℚ := (pts.length : ℚ)

/-- The fitted coefficient on `x` of an intercept OLS of `y` on `x`
(in `ℚ`, division by a zero denominator gives `0`, matching sklearn's
centred degenerate fit). -/
def olsSlope (pts : List (ℚ × ℚ)) : ℚ :=
  (nQ pts * sumXY pts - sumX pts * sumY pts) /
    (nQ pts * sumXX pts - sumX pts * sumX pts)

/-- Sum of squared residuals of the affine model `y = a + b * x`. -/
def ssr (pts : List (ℚ × ℚ)) (a b : ℚ) : ℚ :=
  (pts.map (fun p => (p.2 - a - b * p.1) ^ 2)).sum

/-- `open_contracts = [[x] for x in row if x != 0]` (prices kept in
original order). -/
def open_contracts (row : List ℚ) : List ℚ := row.filter (fun x => x ≠ 0)

/-- `open_contracts_days = [[x] for x in days_exp[:len(open_contracts)]]`:
the prefix of the days row with one entry per surviving price. -/
def open_contracts_days (row days : List ℚ) : List ℚ :=
  days.take (open_contracts row).length

/-- The (days, price) sample pairs handed to the regression for one row. -/
def fitPts (row days : List ℚ) : List (ℚ × ℚ) :=
  (open_contracts_days row days).zip (open_contracts row)

/-- One iteration of the loop in `_gen_vix_curve_slopes`: filter the
snapshot to non-zero prices, pair them positionally with the days-row
prefix, fit OLS of price on days with an intercept, return the slope
(`none` models the sklearn error on zero samples). -/
def gen_vix_slope_row (row days : List ℚ) : Option ℚ :=
  if open_contracts row = [] then none else some (olsSlope (fitPts row days))

/-! ## Yield-curve variant (`Data_Processing(Indices_and_yields).py`) -/

def Mdays : ℕ := 30

def Ydays : ℕ := 365

/-- The fixed treasury maturity day-count row
`[M, int(Y/4), int(Y/2), Y, Y*2, Y*3, Y*5, Y*7, Y*10, Y*20, Y*30]`. -/
def treasury_days : List ℚ :=
  [(Mdays : ℚ), ((Ydays / 4 : ℕ) : ℚ), ((Ydays / 2 : ℕ) : ℚ), (Ydays : ℚ),
   ((Ydays * 2 : ℕ) : ℚ), ((Ydays * 3 : ℕ) : ℚ), ((Ydays * 5 : ℕ) : ℚ),
   ((Ydays * 7 : ℕ) : ℚ), ((Ydays * 10 : ℕ) : ℚ), ((Ydays * 20 : ℕ) : ℚ),
   ((Ydays * 30 : ℕ) : ℚ)]

/-- One iteration of the loop in `__gen_rates_curve_slopes` (with
`start = 0`): take the first `maxVals` entries of the row and of the days
row with no filtering, and fit the same intercept OLS. -/
def gen_rates_slope_row (row days : List ℚ) (maxVals : ℕ) : Option ℚ :=
  let oc := row.take maxVals
  let ocd := days.take maxVals
  if oc = [] then none else some (olsSlope (ocd.zip oc))

/-- `_process_fred_data` core: apply the rates slope with the constant
treasury days row (`max_vals` = its width, 11) to every yield row. -/
def process_fred_data (rows : List (List ℚ)) : Option (List ℚ) :=
  rows.mapM (fun row => gen_rates_slope_row row treasury_days treasury_days.length)

/-! ## Expiry Calendar

A contract in the ordered chain carries the date embedded in its
identifier (`identifier[-10:]` after `pd.to_datetime`) and its price
series. -/

structure VContract where
  idDate : ℕ
  series : Series
deriving DecidableEq, Inhabited

def seriesDates (s : Series) : List ℕ := s.map Prod.fst

/-- Python `dict` update: overwrite in place if the key exists, else
append. -/
def assocUpsert {α : Type} (l : List (ℕ × α)) (k : ℕ) (v : α) : List (ℕ × α) :=
  if (l.lookup k).isSome then
    l.map (fun p => if p.1 = k then (k, v) else p)
  else l ++ [(k, v)]

/-- Loop of `_extract_pseudo_exp_date_list_from_monthly_vix_dict`: for each
contract in chain order, `exp` is its last observation date and
`pseudo_exp` is `merged_df.index[merged_df.index <= exp][-r]`; the pair is
recorded only when that pseudo date has not been seen yet. -/
def pseudoGo (mergedIdx : List ℕ) (r : ℕ) :
    List VContract → List ℕ → List (ℕ × ℕ) → Option (List (ℕ × ℕ))
  | [], _, acc => some acc
  | c :: cs, seen, acc => do
    let expD ← lastDate c.series
    let pe ← idxFromEnd r (mergedIdx.filter (fun d => d ≤ expD))
    if pe ∈ seen then pseudoGo mergedIdx r cs seen acc
    else pseudoGo mergedIdx r cs (seen ++ [pe]) (assocUpsert acc expD pe)

/-- `_extract_pseudo_exp_date_list_from_monthly_vix_dict`, returning the
dict keyed by each contract's last observation date. -/
def extract_pseudo_exp_date_dict (ordered : List VContract) (mergedIdx : List ℕ)
    (r : ℕ) : Option (List (ℕ × ℕ)) :=
  pseudoGo mergedIdx r ordered [] []

/-- `sorted(pseudo_exp_date_dict.keys())`. -/
def sortedKeys (pdict : List (ℕ × ℕ)) : List ℕ :=
  listSort (fun a b => a ≤ b) (pdict.map Prod.fst)

/-- The inner loop of `_extract_days_to_expiry` for one date: the days row
starts with `0` for spot, then for `j in range(max_contract_maturity)` adds
the integer day count `identifier date of contract i+j` minus `date`
(`.days` of the timedelta) whenever that contract has an observation on
`date`. -/
def daysRowFor (ordered : List VContract) (maxM i date : ℕ) : Option (List ℤ) := do
  let entries ← (List.range maxM).mapM (fun j => do
    let c ← ordered[i + j]?
    pure (if date ∈ seriesDates c.series then
            some ((c.idDate : ℤ) - (date : ℤ)) else none))
  pure ((0 : ℤ) :: entries.reduceOption)

/-- Outer loop of `_extract_days_to_expiry` over contract positions
`i in range(len(ordered) - (max_contract_maturity + 1))`: segment `0` is
the merged dates strictly before contract `0`'s pseudo expiration; segment
`i > 0` further requires dates at or after the pseudo expiration looked up
via `sorted(keys)[i-1]`.  Each date in the segment gets its days row. -/
def daysGo (ordered : List VContract) (mergedIdx : List ℕ) (pdict : List (ℕ × ℕ))
    (maxM : ℕ) : List ℕ → List (ℕ × List ℤ) → Option (List (ℕ × List ℤ))
  | [], acc => some acc
  | i :: is, acc => do
    let c ← ordered[i]?
    let pseudo ← pdict.lookup c.idDate
    let datesI ←
      if i = 0 then some (mergedIdx.filter (fun d => d < pseudo))
      else do
        let key ← (sortedKeys pdict)[i - 1]?
        let lastD ← pdict.lookup key
        some ((mergedIdx.filter (fun d => d < pseudo)).filter (fun d => lastD ≤ d))
    let acc2 ← datesI.foldlM (fun a date => do
        let rowj ← daysRowFor ordered maxM i date
        pure (assocUpsert a date rowj)) acc
    daysGo ordered mergedIdx pdict maxM is acc2

/-- `_extract_days_to_expiry`: the `days_to_expiry` mapping, one days row
per processed date, in insertion (chronological-segment) order — exactly
the row order of `df(days_to_expiry).transpose()`. -/
def extract_days_to_expiry (ordered : List VContract) (mergedIdx : List ℕ)
    (pdict : List (ℕ × ℕ)) (maxM : ℕ) : Option (List (ℕ × List ℤ)) :=
  daysGo ordered mergedIdx pdict maxM
    (List.range (ordered.length - (maxM + 1))) []

/-- `_gen_vix_curve_slopes` driver: for `i in range(len(merged_df))`, pair
row `i` of the merged table with row `i` of the days matrix **by
position** (converted to floats by `np.array`/the fit), and record
`(date, slope)`; `none` models the `IndexError` when the days matrix is
shorter and the sklearn error on an all-zero row. -/
def gen_vix_curve_slopes (mergedRows : List (ℕ × List ℚ))
    (daysRows : List (List ℤ)) : Option (List (ℕ × ℚ)) :=
  (List.range mergedRows.length).mapM (fun i => do
    let pr ← mergedRows[i]?
    let dr ← daysRows[i]?
    let s ← gen_vix_slope_row pr.2 (dr.map (fun z => (z : ℚ)))
    pure (pr.1, s))

/-! ## Supporting lemmas -/

theorem lastElem_eq_getElem? {α : Type} : ∀ (l : List α), lastElem l = l[l.length - 1]?
  | [] => rfl
  | [_] => rfl
  | x :: y :: ys => by
    have ih := lastElem_eq_getElem? (y :: ys)
    simp only [lastElem] at ih ⊢
    rw [ih]
    simp [List.getElem?_cons_succ, List.length_cons]

theorem lastElem_isSome {α : Type} (l : List α) (h : l ≠ []) : ∃ x, lastElem l = some x := by
  rw [lastElem_eq_getElem?]
  have hlen : 0 < l.length := List.length_pos.mpr h
  have hlt : l.length - 1 < l.length := by omega
  exact ⟨l[l.length - 1], List.getElem?_eq_getElem hlt⟩

theorem lastElem_mem {α : Type} {l : List α} {x : α} (h : lastElem l = some x) : x ∈ l := by
  rw [lastElem_eq_getElem?] at h
  obtain ⟨hlt, hx⟩ := List.getElem?_eq_some.mp h
  exact hx ▸ List.getElem_mem hlt

theorem lastElem_cons_of_ne {α : Type} (a : α) {l : List α} (h : l ≠ []) :
    lastElem (a :: l) = lastElem l := by
  cases l with
  | nil => exact absurd rfl h
  | cons b bs => rfl

theorem lastElem_append {α : Type} (l₂ : List α) (h : l₂ ≠ []) :
    ∀ (l₁ : List α), lastElem (l₁ ++ l₂) = lastElem l₂
  | [] => rfl
  | a :: l₁ => by
    have hne : l₁ ++ l₂ ≠ [] := fun hc => h (List.append_eq_nil.mp hc).2
    rw [List.cons_append, lastElem_cons_of_ne a hne, lastElem_append l₂ h l₁]

/-- Strictly increasing date index. -/
abbrev SIncr (s : Series) : Prop := s.Pairwise (fun a b => a.1 < b.1)

theorem date_le_lastDate : ∀ {s : Series} {d : ℕ}, SIncr s → lastDate s = some d →
    ∀ x ∈ s, x.1 ≤ d := by
  intro s
  induction s with
  | nil => intro d _ _ x hx; cases hx
  | cons a s ih =>
    intro d hs hd x hx
    cases s with
    | nil =>
      have had : a.1 = d := by
        simpa only [lastDate, lastElem, Option.map_some', Option.some.injEq] using hd
      rcases List.mem_singleton.mp hx with rfl
      omega
    | cons b bs =>
      have hd' : lastDate (b :: bs) = some d := by
        simpa only [lastDate, lastElem_cons_of_ne a (List.cons_ne_nil b bs)] using hd
      rcases List.mem_cons.mp hx with rfl | hx'
      · obtain ⟨p, hp⟩ := lastElem_isSome (b :: bs) (List.cons_ne_nil b bs)
        have hpd : p.1 = d := by
          simp only [lastDate, hp, Option.map_some', Option.some.injEq] at hd'
          exact hd'
        have := List.rel_of_pairwise_cons hs (lastElem_mem hp)
        omega
      · exact ih (List.Pairwise.of_cons hs) hd' x hx'

theorem sincr_ilocDropLast {c : Series} (r : ℕ) (hc : SIncr c) : SIncr (ilocDropLast r c) := by
  unfold ilocDropLast
  split
  · exact List.Pairwise.nil
  · exact List.Pairwise.sublist (List.take_sublist _ _) hc

theorem sincr_append {acc t : Series} {last : ℕ} (hacc : SIncr acc) (ht : SIncr t)
    (hl : lastDate acc = some last) (hgt : ∀ x ∈ t, last < x.1) : SIncr (acc ++ t) :=
  List.pairwise_append.mpr ⟨hacc, ht, fun a ha b hb =>
    lt_of_le_of_lt (date_le_lastDate hacc hl a ha) (hgt b hb)⟩

theorem lastDate_isSome {s : Series} (h : s ≠ []) : ∃ d, lastDate s = some d := by
  obtain ⟨p, hp⟩ := lastElem_isSome s h
  exact ⟨p.1, by simp [lastDate, hp]⟩

theorem lastDate_ne_nil {s : Series} {d : ℕ} (h : lastDate s = some d) : s ≠ [] := by
  intro hc
  subst hc
  simp [lastDate, lastElem] at h

/-! ### Front-month loop invariants -/

theorem fmGo_ne (r : ℕ) : ∀ (cs : List Series) (acc : Series) (last : ℕ), acc ≠ [] →
    ∃ s, fmGo r cs acc last = some s ∧ s ≠ [] := by
  intro cs
  induction cs with
  | nil => intro acc last h; exact ⟨acc, rfl, h⟩
  | cons c cs ih =>
    intro acc last h
    have hne2 : acc ++ (ilocDropLast r c).filter (fun x => last < x.1) ≠ [] := by
      intro hc
      exact h (List.append_eq_nil.mp hc).1
    obtain ⟨d, hd⟩ := lastDate_isSome hne2
    obtain ⟨s, hs, hsne⟩ := ih (acc ++ (ilocDropLast r c).filter (fun x => last < x.1)) d hne2
    refine ⟨s, ?_, hsne⟩
    simp only [fmGo, hd]
    exact hs

theorem fmGo_sorted (r : ℕ) : ∀ (cs : List Series) (acc : Series) (last : ℕ),
    SIncr acc → lastDate acc = some last → (∀ c ∈ cs, SIncr c) →
    ∀ s, fmGo r cs acc last = some s → SIncr s := by
  intro cs
  induction cs with
  | nil =>
    intro acc last hacc _ _ s h
    simp only [fmGo, Option.some.injEq] at h
    exact h ▸ hacc
  | cons c cs ih =>
    intro acc last hacc hl hcs s h
    simp only [fmGo] at h
    have hts : SIncr ((ilocDropLast r c).filter (fun x => last < x.1)) :=
      List.Pairwise.sublist (List.filter_sublist _)
        (sincr_ilocDropLast r (hcs c (List.mem_cons_self c cs)))
    have htgt : ∀ x ∈ (ilocDropLast r c).filter (fun x => last < x.1), last < x.1 := by
      intro x hx
      have := (List.mem_filter.mp hx).2
      exact of_decide_eq_true this
    have hacc2 : SIncr (acc ++ (ilocDropLast r c).filter (fun x => last < x.1)) :=
      sincr_append hacc hts hl htgt
    split at h
    · exact absurd h (by simp)
    · next l2 hl2 =>
      exact ih (acc ++ (ilocDropLast r c).filter (fun x => last < x.1)) l2 hacc2 hl2
        (fun c' hc' => hcs c' (List.mem_cons_of_mem c hc')) s h

theorem fmGo_roundtrip (r : ℕ) : ∀ (cs : List Series) (acc : Series) (last : ℕ),
    lastDate acc = some last →
    SIncr (acc ++ (cs.map (ilocDropLast r)).flatten) →
    fmGo r cs acc last = some (acc ++ (cs.map (ilocDropLast r)).flatten) := by
  intro cs
  induction cs with
  | nil => intro acc last _ _; simp [fmGo]
  | cons c cs ih =>
    intro acc last hl hs
    have hfilter : (ilocDropLast r c).filter (fun x => last < x.1) = ilocDropLast r c := by
      apply List.filter_eq_self.mpr
      intro x hx
      obtain ⟨p, hp⟩ := lastElem_isSome acc (lastDate_ne_nil hl)
      have hpd : p.1 = last := by
        simp only [lastDate, hp, Option.map_some', Option.some.injEq] at hl
        exact hl
      have hrel := (List.pairwise_append.mp hs).2.2 p (lastElem_mem hp) x
        (by
          simp only [List.map_cons, List.flatten_cons]
          exact List.mem_append_left _ hx)
      rw [hpd] at hrel
      simpa using hrel
    by_cases hte : ilocDropLast r c = []
    · have hacc2 : acc ++ (ilocDropLast r c).filter (fun x => last < x.1) = acc := by
        rw [hfilter, hte, List.append_nil]
      simp only [fmGo, hacc2, hl]
      have hs2 : SIncr (acc ++ (List.map (ilocDropLast r) cs).flatten) := by
        simpa [hte] using hs
      have := ih acc last hl hs2
      rw [this]
      simp [hte]
    · have hacc2 : acc ++ (ilocDropLast r c).filter (fun x => last < x.1)
          = acc ++ ilocDropLast r c := by rw [hfilter]
      obtain ⟨d2, hd2⟩ : ∃ d2, lastDate (acc ++ ilocDropLast r c) = some d2 :=
        lastDate_isSome (fun hc => hte (List.append_eq_nil.mp hc).2)
      simp only [fmGo, hacc2, hd2]
      have hs2 : SIncr ((acc ++ ilocDropLast r c) ++ (List.map (ilocDropLast r) cs).flatten) := by
        simpa [List.append_assoc] using hs
      have := ih (acc ++ ilocDropLast r c) d2 hd2 hs2
      rw [this]
      simp [List.append_assoc]

/-! ### Other-months loop invariants -/

theorem idxFromEnd_isSome {α : Type} {l : List α} (r : ℕ) (hne : l ≠ [])
    (hr : r ≤ l.length) : ∃ x, idxFromEnd r l = some x := by
  have hlen : 0 < l.length := List.length_pos.mpr hne
  unfold idxFromEnd
  by_cases h0 : r = 0
  · subst h0
    refine ⟨l[0], ?_⟩
    rw [if_neg (by omega), if_pos rfl]
    exact List.getElem?_eq_getElem hlen
  · refine ⟨l[l.length - r], ?_⟩
    rw [if_neg (by omega), if_neg h0, if_pos hr]
    exact List.getElem?_eq_getElem (by omega)

theorem indexNeg_isSome {s : Series} (r : ℕ) (hne : s ≠ []) (hr : r ≤ s.length) :
    ∃ d, indexNeg r s = some d := by
  obtain ⟨x, hx⟩ := idxFromEnd_isSome r hne hr
  exact ⟨x.1, by simp [indexNeg, hx]⟩

theorem omGo_ne (r k : ℕ) (chain : List Series) :
    ∀ (is : List ℕ) (acc : Series) (last : ℕ), acc ≠ [] →
    (∀ i ∈ is, i < chain.length ∧
      chain.getD (i - (k - 1)) [] ≠ [] ∧ r ≤ (chain.getD (i - (k - 1)) []).length) →
    ∃ s, omGo r k chain is acc last = some s ∧ s ≠ [] := by
  intro is
  induction is with
  | nil => intro acc last h _; exact ⟨acc, rfl, h⟩
  | cons i is ih =>
    intro acc last h hcond
    obtain ⟨hi, hfne, hfr⟩ := hcond i (List.mem_cons_self i is)
    have hik : i - (k - 1) < chain.length := by
      by_contra hc
      push_neg at hc
      rw [List.getD_eq_getElem?_getD, List.getElem?_eq_none hc] at hfne
      exact hfne rfl
    have hgd : chain.getD (i - (k - 1)) [] = chain[i - (k - 1)] := by
      rw [List.getD_eq_getElem?_getD, List.getElem?_eq_getElem hik]
      rfl
    have hfc : chain[i - (k - 1)]? = some chain[i - (k - 1)] :=
      List.getElem?_eq_getElem hik
    rw [hgd] at hfne hfr
    obtain ⟨fme, hfme⟩ := indexNeg_isSome r hfne hfr
    have hci : chain[i]? = some chain[i] := List.getElem?_eq_getElem hi
    have hne2 : acc ++ ((chain[i].filter (fun x => x.1 < fme)).filter
        (fun x => last < x.1)) ≠ [] := by
      intro hc
      exact h (List.append_eq_nil.mp hc).1
    obtain ⟨d2, hd2⟩ := lastDate_isSome hne2
    obtain ⟨s, hgo, hsne⟩ := ih _ d2 hne2 (fun j hj => hcond j (List.mem_cons_of_mem i hj))
    refine ⟨s, ?_, hsne⟩
    simp only [omGo, hfc, hfme, hci, hd2]
    exact hgo

theorem omGo_sorted (r k : ℕ) (chain : List Series) (hchain : ∀ c ∈ chain, SIncr c) :
    ∀ (is : List ℕ) (acc : Series) (last : ℕ),
    SIncr acc → lastDate acc = some last →
    ∀ s, omGo r k chain is acc last = some s → SIncr s := by
  intro is
  induction is with
  | nil =>
    intro acc last hacc _ s h
    simp only [omGo, Option.some.injEq] at h
    exact h ▸ hacc
  | cons i is ih =>
    intro acc last hacc hl s h
    simp only [omGo] at h
    split at h
    · exact absurd h (by simp)
    next fc hfc =>
      split at h
      · exact absurd h (by simp)
      next fme hfme =>
        split at h
        · exact absurd h (by simp)
        next ci hci =>
          have hci_mem : ci ∈ chain := by
            obtain ⟨hlt, hv⟩ := List.getElem?_eq_some.mp hci
            exact hv ▸ List.getElem_mem hlt
          have hcand : SIncr ((ci.filter (fun x => x.1 < fme)).filter
              (fun x => last < x.1)) :=
            List.Pairwise.sublist
              ((List.filter_sublist _).trans (List.filter_sublist _)) (hchain ci hci_mem)
          have hcand_gt : ∀ x ∈ (ci.filter (fun x => x.1 < fme)).filter
              (fun x => last < x.1), last < x.1 := by
            intro x hx
            exact of_decide_eq_true (List.mem_filter.mp hx).2
          have hacc2 : SIncr (acc ++ (ci.filter (fun x => x.1 < fme)).filter
              (fun x => last < x.1)) := sincr_append hacc hcand hl hcand_gt
          split at h
          · exact absurd h (by simp)
          · next l2 hl2 =>
            exact ih _ l2 hacc2 hl2 s h

/-- Decomposition of the `___concatenate_other_months` loop output into
per-contract segments: for each loop index `i`, the appended segment is a
sublist of contract `i`'s series, every one of its dates lying strictly
below `index[-r]` of contract `i - (k-1)`. -/
theorem omGo_decomp (r k : ℕ) (chain : List Series) :
    ∀ (is : List ℕ) (acc : Series) (last : ℕ) (s : Series),
    omGo r k chain is acc last = some s →
    ∃ segs : List Series, s = acc ++ segs.flatten ∧ segs.length = is.length ∧
      ∀ j, j < segs.length → ∃ c fb b,
        chain[is.getD j 0]? = some c ∧
        chain[is.getD j 0 - (k - 1)]? = some fb ∧
        indexNeg r fb = some b ∧
        (segs.getD j []).Sublist c ∧ ∀ x ∈ segs.getD j [], x.1 < b := by
  intro is
  induction is with
  | nil =>
    intro acc last s h
    simp only [omGo, Option.some.injEq] at h
    exact ⟨[], by simp [h.symm], rfl, fun j hj => absurd hj (by simp)⟩
  | cons i is ih =>
    intro acc last s h
    simp only [omGo] at h
    split at h
    · exact absurd h (by simp)
    next fc hfc =>
      split at h
      · exact absurd h (by simp)
      next fme hfme =>
        split at h
        · exact absurd h (by simp)
        next ci hci =>
          split at h
          · exact absurd h (by simp)
          · next l2 hl2 =>
            obtain ⟨segs, hseq, hslen, hsprop⟩ := ih _ l2 s h
            refine ⟨(ci.filter (fun x => x.1 < fme)).filter (fun x => last < x.1) :: segs,
              by simp [hseq, List.append_assoc], by simp [hslen], ?_⟩
            intro j hj
            cases j with
            | zero =>
              refine ⟨ci, fc, fme, hci, hfc, hfme, ?_, ?_⟩
              · exact ((List.filter_sublist _).trans (List.filter_sublist _))
              · intro x hx
                have hx1 := (List.mem_filter.mp (List.mem_of_mem_filter hx)).2
                exact of_decide_eq_true hx1
            | succ j' =>
              have hj' : j' < segs.length := by simpa using hj
              obtain ⟨c, fb, b, h1, h2, h3, h4, h5⟩ := hsprop j' hj'
              exact ⟨c, fb, b, h1, h2, h3, h4, h5⟩

/-! ### De-duplication and `mapM` helpers -/

theorem dedupGo_sublist : ∀ (s : Series) (seen : List ℕ), (dedupGo s seen).Sublist s := by
  intro s
  induction s with
  | nil => intro seen; simp [dedupGo]
  | cons x xs ih =>
    intro seen
    simp only [dedupGo]
    split
    · exact (ih seen).trans (List.sublist_cons_self x xs)
    · exact List.Sublist.cons₂ x (ih (x.1 :: seen))

theorem dedupByDate_sublist (s : Series) : (dedupByDate s).Sublist s :=
  dedupGo_sublist s []

theorem sincr_dedupByDate {s : Series} (h : SIncr s) : SIncr (dedupByDate s) :=
  List.Pairwise.sublist (dedupByDate_sublist s) h

theorem dedupByDate_eq_self {s : Series} (h : SIncr s) : dedupByDate s = s := by
  have key : ∀ (t : Series) (seen : List ℕ), SIncr t → (∀ d ∈ seen, ∀ x ∈ t, d < x.1) →
      dedupGo t seen = t := by
    intro t
    induction t with
    | nil => intro seen _ _; rfl
    | cons x xs ih =>
      intro seen ht hseen
      have hnotin : x.1 ∉ seen := by
        intro hc
        exact absurd (hseen x.1 hc x (List.mem_cons_self x xs)) (lt_irrefl x.1)
      simp only [dedupGo, if_neg hnotin]
      rw [ih (x.1 :: seen) (List.Pairwise.of_cons ht) ?_]
      intro d hd y hy
      rcases List.mem_cons.mp hd with rfl | hd'
      · exact List.rel_of_pairwise_cons ht hy
      · exact hseen d hd' y (List.mem_cons_of_mem x hy)
  exact key s [] h (fun d hd => absurd hd (List.not_mem_nil d))

theorem mapM_some_mem {α β : Type} (f : α → Option β) :
    ∀ (l : List α) (out : List β), l.mapM f = some out →
    ∀ b ∈ out, ∃ a ∈ l, f a = some b := by
  intro l
  induction l with
  | nil =>
    intro out h b hb
    simp only [List.mapM_nil] at h
    cases h
    cases hb
  | cons a l ih =>
    intro out h b hb
    rw [List.mapM_cons] at h
    rcases hfa : f a with _ | y
    · rw [hfa] at h; cases h
    rw [hfa] at h
    rcases hml : l.mapM f with _ | ys
    · rw [hml] at h; cases h
    rw [hml] at h
    simp only [Option.bind_eq_bind, Option.some_bind, Option.pure_def,
      Option.some.injEq] at h
    subst h
    rcases List.mem_cons.mp hb with rfl | hb'
    · exact ⟨a, List.mem_cons_self a l, hfa⟩
    · obtain ⟨a', ha', hfa'⟩ := ih ys hml b hb'
      exact ⟨a', List.mem_cons_of_mem a ha', hfa'⟩

theorem mapM_eq_map {α β : Type} (f : α → Option β) (g : α → β) :
    ∀ (l : List α), (∀ a ∈ l, f a = some (g a)) → l.mapM f = some (l.map g) := by
  intro l
  induction l with
  | nil => intro _; rfl
  | cons a l ih =>
    intro h
    rw [List.mapM_cons, h a (List.mem_cons_self a l),
      ih (fun a' ha' => h a' (List.mem_cons_of_mem a ha'))]
    rfl

/-! ### Sorting and counting lemmas for the chain ordering -/

theorem listInsert_perm {α : Type} (le : α → α → Bool) (x : α) :
    ∀ (l : List α), (listInsert le x l).Perm (x :: l)
  | [] => List.Perm.refl _
  | y :: ys => by
    simp only [listInsert]
    split
    · exact ((listInsert_perm le x ys).cons y).trans (List.Perm.swap x y ys)
    · exact List.Perm.refl _

theorem listSort_perm {α : Type} (le : α → α → Bool) :
    ∀ (l : List α), (listSort le l).Perm l
  | [] => List.Perm.refl _
  | x :: xs =>
    (listInsert_perm le x (listSort le xs)).trans ((listSort_perm le xs).cons x)

theorem count_flatMap_filter (idents : List Ident) (a : Ident) :
    ∀ (ds : List Ident),
    List.count a (ds.flatMap (fun d => idents.filter (fun x => suffix10 x = d)))
      = List.count (suffix10 a) ds * List.count a idents := by
  intro ds
  induction ds with
  | nil => simp
  | cons d ds ih =>
    simp only [List.flatMap_cons, List.count_append, ih, List.count_cons]
    by_cases hd : suffix10 a = d
    · subst hd
      rw [List.count_filter (by simp)]
      simp only [beq_self_eq_true, if_true]
      ring
    · have hnot : a ∉ idents.filter (fun x => suffix10 x = d) := by
        intro hc
        exact hd (of_decide_eq_true (List.mem_filter.mp hc).2)
      rw [List.count_eq_zero.mpr hnot]
      have hne : (d == suffix10 a) = false := by
        simp only [beq_eq_false_iff_ne, ne_eq]
        exact fun hc => hd hc.symm
      rw [hne]
      simp

theorem perm_count_ident {l l' : List Ident} (h : l.Perm l') (a : Ident) :
    List.count a l = List.count a l' := by
  induction h with
  | nil => rfl
  | cons x _ ih => simp [List.count_cons, ih]
  | swap x y l => simp only [List.count_cons]; omega
  | trans _ _ ih1 ih2 => exact ih1.trans ih2

theorem count_order_contracts (idents : List Ident) (a : Ident) :
    List.count a (order_contracts_based_on_dates idents)
      = List.count (suffix10 a) (idents.map suffix10) * List.count a idents := by
  unfold order_contracts_based_on_dates extract_date_from_contract_identifier
  rw [count_flatMap_filter]
  congr 1
  exact perm_count_ident (listSort_perm lexLe _) _

/-! ### Least-squares optimality -/

theorem ssr_cons (p : ℚ × ℚ) (ps : List (ℚ × ℚ)) (a b : ℚ) :
    ssr (p :: ps) a b = (p.2 - a - b * p.1) ^ 2 + ssr ps a b := by
  simp [ssr]

theorem ssr_expand : ∀ (pts : List (ℚ × ℚ)) (a b : ℚ),
    ssr pts a b = sumYY pts + nQ pts * a ^ 2 + sumXX pts * b ^ 2
      - 2 * a * sumY pts - 2 * b * sumXY pts + 2 * a * b * sumX pts := by
  intro pts
  induction pts with
  | nil => intro a b; simp [ssr, sumYY, nQ, sumXX, sumY, sumXY, sumX]
  | cons p ps ih =>
    intro a b
    rw [ssr_cons, ih a b]
    simp only [sumYY, sumXX, sumY, sumXY, sumX, nQ, List.map_cons, List.sum_cons,
      List.length_cons]
    push_cast
    ring

theorem nQ_pos_of_denom {pts : List (ℚ × ℚ)}
    (hD : 0 < nQ pts * sumXX pts - sumX pts * sumX pts) : 0 < nQ pts := by
  rcases pts with _ | ⟨p, ps⟩
  · simp [nQ, sumXX, sumX] at hD
  · have : (0:ℚ) ≤ (ps.length : ℚ) := Nat.cast_nonneg _
    simp only [nQ, List.length_cons]
    push_cast
    linarith

/-- The closed-form slope together with the matching intercept minimises the
sum of squared residuals, whenever the day counts are not all identical
(positive denominator). -/
theorem ols_slope_min (pts : List (ℚ × ℚ))
    (hD : 0 < nQ pts * sumXX pts - sumX pts * sumX pts) :
    ∃ a, ∀ a' b', ssr pts a (olsSlope pts) ≤ ssr pts a' b' := by
  have hn : (0:ℚ) < nQ pts := nQ_pos_of_denom hD
  have hDne : nQ pts * sumXX pts - sumX pts * sumX pts ≠ 0 := ne_of_gt hD
  have hnne : nQ pts ≠ 0 := ne_of_gt hn
  refine ⟨(sumY pts - olsSlope pts * sumX pts) / nQ pts, ?_⟩
  intro a' b'
  have key : nQ pts * ssr pts a' b'
      - nQ pts * ssr pts ((sumY pts - olsSlope pts * sumX pts) / nQ pts) (olsSlope pts)
      = (nQ pts * a' + sumX pts * b' - sumY pts) ^ 2
        + (nQ pts * sumXX pts - sumX pts * sumX pts) * (b' - olsSlope pts) ^ 2 := by
    rw [ssr_expand, ssr_expand]
    unfold olsSlope
    field_simp
    ring
  have h1 : 0 ≤ nQ pts * ssr pts a' b'
      - nQ pts * ssr pts ((sumY pts - olsSlope pts * sumX pts) / nQ pts) (olsSlope pts) :=
    key ▸ add_nonneg (sq_nonneg _) (mul_nonneg hD.le (sq_nonneg _))
  have h2 : nQ pts * ssr pts ((sumY pts - olsSlope pts * sumX pts) / nQ pts) (olsSlope pts)
      ≤ nQ pts * ssr pts a' b' := by linarith
  exact (mul_le_mul_left hn).mp h2

/-! ### Sortedness of the full stitchers -/

theorem concatenate_front_month_sorted {r : ℕ} {chain : List Series} {s : Series}
    (hchain : ∀ c ∈ chain, SIncr c) (h : concatenate_front_month r chain = some s) :
    SIncr s := by
  cases chain with
  | nil => cases h
  | cons c0 rest =>
    simp only [concatenate_front_month] at h
    split at h
    · exact absurd h (by simp)
    · next d0 hd0 =>
      have hacc0 : SIncr (ilocDropLast r c0) :=
        sincr_ilocDropLast r (hchain c0 (List.mem_cons_self c0 rest))
      exact fmGo_sorted r rest (ilocDropLast r c0) d0 hacc0 hd0
        (fun c hc => hchain c (List.mem_cons_of_mem c0 hc)) s h

theorem concatenate_other_months_sorted {r k : ℕ} {chain : List Series} {s : Series}
    (hchain : ∀ c ∈ chain, SIncr c) (h : concatenate_other_months r k chain = some s) :
    SIncr s := by
  simp only [concatenate_other_months] at h
  split at h
  · exact absurd h (by simp)
  next c0 hc0 =>
    split at h
    · exact absurd h (by simp)
    next fme hfme =>
      split at h
      · exact absurd h (by simp)
      next cand hcand =>
        split at h
        · exact absurd h (by simp)
        next last0 hlast0 =>
          have hcand_mem : cand ∈ chain := by
            obtain ⟨hlt, hv⟩ := List.getElem?_eq_some.mp hcand
            exact hv ▸ List.getElem_mem hlt
          have hseg0 : SIncr (cand.filter (fun x => x.1 < fme)) :=
            List.Pairwise.sublist (List.filter_sublist _) (hchain cand hcand_mem)
          exact omGo_sorted r k chain hchain _ _ last0 hseg0 hlast0 s h

/-! ## Claim theorems -/

/-- C1: for a two-contract chain `[A, B]` and roll offset `r ≥ 1` (with
`A` longer than the roll window), the stitched front-month series is
exactly `A` minus its trailing `r` observations followed by exactly those
observations of `B` minus its own trailing `r` observations whose dates
are strictly after the last date already included; that boundary is
precisely `A`'s observation `r` positions before its end, every retained
`A` date is ≤ it and every appended `B` date is > it, so the switch from
`A` to `B` happens exactly there. -/
theorem front_month_roll_boundary (A B : Series) (r : ℕ) (hr : 1 ≤ r)
    (hlen : r < A.length) (hA : SIncr A) :
    ∃ p, A[A.length - r - 1]? = some p ∧
      concatenate_front_month r [A, B] =
        some (ilocDropLast r A ++ (ilocDropLast r B).filter (fun x => p.1 < x.1)) ∧
      (∀ x ∈ ilocDropLast r A, x.1 ≤ p.1) ∧
      (∀ x ∈ (ilocDropLast r B).filter (fun x => p.1 < x.1), p.1 < x.1) := by
  have hr0 : r ≠ 0 := by omega
  have hiloc : ilocDropLast r A = A.take (A.length - r) := by simp [ilocDropLast, hr0]
  have hlenA : (A.take (A.length - r)).length = A.length - r := by
    rw [List.length_take]
    exact inf_eq_left.mpr (by omega)
  have hplt : A.length - r - 1 < A.length := by omega
  have hlast : lastDate (ilocDropLast r A) = some (A[A.length - r - 1]).1 := by
    rw [hiloc, lastDate, lastElem_eq_getElem?, hlenA, List.getElem?_take,
      if_pos (by omega : A.length - r - 1 < A.length - r),
      List.getElem?_eq_getElem hplt]
    rfl
  have hne : ilocDropLast r A ≠ [] := by
    rw [hiloc]
    intro hc
    have hl0 := congrArg List.length hc
    rw [hlenA] at hl0
    simp only [List.length_nil] at hl0
    omega
  have hne2 : ilocDropLast r A ++ (ilocDropLast r B).filter
      (fun x => (A[A.length - r - 1]).1 < x.1) ≠ [] :=
    fun hc => hne (List.append_eq_nil.mp hc).1
  obtain ⟨d2, hd2⟩ := lastDate_isSome hne2
  refine ⟨A[A.length - r - 1], List.getElem?_eq_getElem hplt, ?_, ?_, ?_⟩
  · simp only [concatenate_front_month, hlast, fmGo, hd2]
  · exact date_le_lastDate (sincr_ilocDropLast r hA) hlast
  · intro x hx
    exact of_decide_eq_true (List.mem_filter.mp hx).2

def exA1 : Series := [(1, 10), (2, 11), (3, 12)]

def exB1 : Series := [(4, 20), (5, 21), (6, 22)]

/-- Witness for C1 at a concrete two-contract chain with `r = 1`. -/
theorem front_month_roll_boundary_witness :
    1 ≤ 1 ∧ 1 < exA1.length ∧ SIncr exA1 ∧
    (∃ p, exA1[exA1.length - 1 - 1]? = some p ∧
      concatenate_front_month 1 [exA1, exB1] =
        some (ilocDropLast 1 exA1 ++ (ilocDropLast 1 exB1).filter (fun x => p.1 < x.1)) ∧
      (∀ x ∈ ilocDropLast 1 exA1, x.1 ≤ p.1) ∧
      (∀ x ∈ (ilocDropLast 1 exB1).filter (fun x => p.1 < x.1), p.1 < x.1)) :=
  ⟨by decide, by decide, by decide,
    front_month_roll_boundary exA1 exB1 1 (by decide) (by decide) (by decide)⟩

/-- C2 (amended): for rank `k ≥ 2`, the stitched series decomposes into
segments `j = 0, 1, ...`, segment `j` drawing only on chain contract
`k - 1 + j` (0-based) with every date strictly below the `index[-r]` date
of front-month contract `j` — the contract `(k-1)` positions behind the
reference contract, so rank-k roll boundaries lag rank-1 boundaries by
exactly `k - 1` contract transitions (not `k - 2` as the claim's
`i - (k - 2)` formula reads). -/
theorem rank_k_segments (r k : ℕ) (chain : List Series) (s : Series)
    (hk : 2 ≤ k) (h : concatenate_other_months r k chain = some s) :
    ∃ segs : List Series, s = segs.flatten ∧ segs.length = chain.length - k + 1 ∧
      ∀ j, j < segs.length → ∃ c fb b,
        chain[k - 1 + j]? = some c ∧ chain[j]? = some fb ∧
        indexNeg r fb = some b ∧
        (segs.getD j []).Sublist c ∧ ∀ x ∈ segs.getD j [], x.1 < b := by
  simp only [concatenate_other_months] at h
  split at h
  · exact absurd h (by simp)
  next c0 hc0 =>
    split at h
    · exact absurd h (by simp)
    next fme hfme =>
      split at h
      · exact absurd h (by simp)
      next cand hcand =>
        split at h
        · exact absurd h (by simp)
        next last0 hlast0 =>
          obtain ⟨segs, hseq, hslen, hsprop⟩ := omGo_decomp r k chain _ _ last0 s h
          have hkle : k ≤ chain.length := by
            obtain ⟨hlt, _⟩ := List.getElem?_eq_some.mp hcand
            omega
          refine ⟨cand.filter (fun x => x.1 < fme) :: segs, by simp [hseq], ?_, ?_⟩
          · simp only [List.length_cons, hslen, List.length_range']
          · intro j hj
            cases j with
            | zero =>
              refine ⟨cand, c0, fme, ?_, ?_, hfme, ?_, ?_⟩
              · simpa using hcand
              · exact hc0
              · simp only [List.getD_cons_zero]
                exact List.filter_sublist cand
              · intro x hx
                simp only [List.getD_cons_zero] at hx
                exact of_decide_eq_true (List.mem_filter.mp hx).2
            | succ j' =>
              have hj' : j' < segs.length := by
                simp only [List.length_cons] at hj
                omega
              obtain ⟨c, fb, b, h1, h2, h3, h4, h5⟩ := hsprop j' hj'
              have hn : j' < chain.length - k := by
                rw [hslen, List.length_range'] at hj'
                exact hj'
              have hidx : (List.range' k (chain.length - k)).getD j' 0 = k + j' := by
                rw [List.getD_eq_getElem?_getD, List.getElem?_range' k 1 hn]
                simp
              rw [hidx] at h1 h2
              have e1 : k - 1 + (j' + 1) = k + j' := by omega
              have e2 : k + j' - (k - 1) = j' + 1 := by omega
              rw [e2] at h2
              refine ⟨c, fb, b, ?_, h2, h3, ?_, ?_⟩
              · rw [e1]; exact h1
              · simpa using h4
              · simpa using h5

def exA2 : Series := [(1, 10), (2, 11), (3, 12), (4, 13)]

def exB2 : Series := [(1, 20), (2, 21), (3, 22), (4, 23), (5, 24), (6, 25)]

/-- C2 counterexample: on a concrete two-contract chain with `k = 2`,
`r = 1`, the source's rank-2 stitch cuts the segment drawing on contract 2
at contract 1's `index[-1]` date (4), while the claim's `i - (k - 2)`
boundary formula (the contract's own expiry) would keep dates 4 and 5 —
the two stitches differ. -/
theorem rank_k_claim_formula_counterexample :
    concatenate_other_months 1 2 [exA2, exB2] = some [(1, 20), (2, 21), (3, 22)] ∧
    concatenate_other_months_claim 1 2 [exA2, exB2]
      = some [(1, 20), (2, 21), (3, 22), (4, 23), (5, 24)] ∧
    ([(1, 20), (2, 21), (3, 22)] : Series)
      ≠ [(1, 20), (2, 21), (3, 22), (4, 23), (5, 24)] :=
  ⟨by decide, by decide, by decide⟩

/-- Witness for the amended C2 at the concrete chain. -/
theorem rank_k_segments_witness :
    2 ≤ 2 ∧
    (∃ segs : List Series, ([(1, 20), (2, 21), (3, 22)] : Series) = segs.flatten ∧
      segs.length = ([exA2, exB2] : List Series).length - 2 + 1 ∧
      ∀ j, j < segs.length → ∃ c fb b,
        ([exA2, exB2] : List Series)[2 - 1 + j]? = some c ∧
        ([exA2, exB2] : List Series)[j]? = some fb ∧
        indexNeg 1 fb = some b ∧
        (segs.getD j []).Sublist c ∧ ∀ x ∈ segs.getD j [], x.1 < b) :=
  ⟨by decide, rank_k_segments 1 2 [exA2, exB2] [(1, 20), (2, 21), (3, 22)]
    (by decide) (by decide)⟩

/-- C3 counterexample: stitching a chain of two contiguous synthetic
contracts with non-overlapping date ranges (roll offset 1) does not
reproduce their concatenation — the trailing roll-window observation of
each contract is dropped, so dates 3 and 6 are missing. -/
theorem stitch_roundtrip_counterexample :
    process_maturity_data 1 1 [exA1, exB1]
      = some [[(1, 10), (2, 11), (4, 20), (5, 21)]] ∧
    ([(1, 10), (2, 11), (4, 20), (5, 21)] : Series) ≠ ([exA1, exB1] : List Series).flatten :=
  ⟨by decide, by decide⟩

/-- C3 (amended): with sorted contract series every stitched rank series
(any rank, after the source's de-duplication) has a strictly increasing
date index, hence no duplicate dates; and the rank-1 round trip holds for
the roll-window-truncated contracts: when the truncated series are
globally in increasing date order, front-month stitching returns exactly
their concatenation (each contract minus its trailing `r` rows — not the
full contracts, as the claim reads). -/
theorem stitched_sorted_and_truncated_roundtrip (r maxK : ℕ) (chain : List Series)
    (hchain : ∀ c ∈ chain, SIncr c) :
    (∀ l, process_maturity_data r maxK chain = some l → ∀ s ∈ l, SIncr s) ∧
    (∀ c0 rest, chain = c0 :: rest → ilocDropLast r c0 ≠ [] →
      SIncr ((chain.map (ilocDropLast r)).flatten) →
      concatenate_front_month r chain = some ((chain.map (ilocDropLast r)).flatten)) := by
  constructor
  · intro l hl s hs
    obtain ⟨k, _, hfk⟩ := mapM_some_mem _ _ l hl s hs
    obtain ⟨s0, hs0, hdedup⟩ := Option.map_eq_some'.mp hfk
    unfold concatenate_contracts at hs0
    split at hs0
    · exact hdedup ▸ sincr_dedupByDate (concatenate_front_month_sorted hchain hs0)
    · exact hdedup ▸ sincr_dedupByDate (concatenate_other_months_sorted hchain hs0)
  · intro c0 rest hchain_eq hne hflat
    subst hchain_eq
    obtain ⟨d0, hd0⟩ := lastDate_isSome hne
    have hflat' : SIncr (ilocDropLast r c0 ++ (rest.map (ilocDropLast r)).flatten) := by
      simpa using hflat
    simp only [concatenate_front_month, hd0]
    rw [fmGo_roundtrip r rest (ilocDropLast r c0) d0 hd0 hflat']
    simp

/-- Witness for the amended C3 at a concrete contiguous chain. -/
theorem stitched_sorted_and_truncated_roundtrip_witness :
    (∀ c ∈ ([exA1, exB1] : List Series), SIncr c) ∧
    ((∀ l, process_maturity_data 1 1 [exA1, exB1] = some l → ∀ s ∈ l, SIncr s) ∧
     (∀ c0 rest, ([exA1, exB1] : List Series) = c0 :: rest → ilocDropLast 1 c0 ≠ [] →
       SIncr ((([exA1, exB1] : List Series).map (ilocDropLast 1)).flatten) →
       concatenate_front_month 1 [exA1, exB1]
         = some ((([exA1, exB1] : List Series).map (ilocDropLast 1)).flatten))) :=
  ⟨by decide, stitched_sorted_and_truncated_roundtrip 1 1 [exA1, exB1] (by decide)⟩

/-- C10 counterexample: with roll offset `r = 0` (an integer ≥ 0 permitted
by the configuration), `iloc[:-0]` is the empty frame, so the very first
`index[-1]` access in front-month stitching raises — stitching is not
well-defined there even on a healthy chain. -/
theorem roll_offset_zero_crash :
    concatenate_front_month 0 [exA1, exB1] = none :=
  by decide

/-- C10 (amended): stitching is well-defined for roll offsets `r ≥ 1` on
chains whose first contract has more than `r` observations and whose
contracts all have at least `r` observations: front-month stitching
succeeds with a non-empty result, and for each rank `k ≥ 2` within the
chain length whose initial segment (the `k`-th contract cut at the first
contract's `index[-r]` date) is non-empty, rank-`k` stitching succeeds
with a non-empty result. -/
theorem stitching_defined (r : ℕ) (c0 : Series) (rest : List Series) (hr : 1 ≤ r)
    (h0 : r < c0.length)
    (hall : ∀ c ∈ c0 :: rest, c ≠ [] ∧ r ≤ c.length) :
    (∃ s, concatenate_front_month r (c0 :: rest) = some s ∧ s ≠ []) ∧
    (∀ k, 2 ≤ k → k ≤ (c0 :: rest).length →
      ∀ d, indexNeg r c0 = some d →
      ((c0 :: rest).getD (k - 1) []).filter (fun x => x.1 < d) ≠ [] →
      ∃ s, concatenate_other_months r k (c0 :: rest) = some s ∧ s ≠ []) := by
  have hr0 : r ≠ 0 := by omega
  constructor
  · have hiloc : ilocDropLast r c0 = c0.take (c0.length - r) := by simp [ilocDropLast, hr0]
    have hne : ilocDropLast r c0 ≠ [] := by
      rw [hiloc]
      intro hc
      have hl := congrArg List.length hc
      rw [List.length_take] at hl
      simp only [List.length_nil] at hl
      omega
    obtain ⟨d0, hd0⟩ := lastDate_isSome hne
    obtain ⟨s, hs, hsne⟩ := fmGo_ne r rest (ilocDropLast r c0) d0 hne
    refine ⟨s, ?_, hsne⟩
    simp only [concatenate_front_month, hd0]
    exact hs
  · intro k hk hkn d hd hseg
    have hlen : (c0 :: rest).length = rest.length + 1 := rfl
    have hk1 : k - 1 < (c0 :: rest).length := by omega
    have hc0 : (c0 :: rest)[0]? = some c0 := by simp
    have hcand : (c0 :: rest)[k - 1]? = some ((c0 :: rest).getD (k - 1) []) := by
      rw [List.getD_eq_getElem?_getD, List.getElem?_eq_getElem hk1]
      rfl
    obtain ⟨last0, hlast0⟩ := lastDate_isSome hseg
    have hcond : ∀ i ∈ List.range' k ((c0 :: rest).length - k), i < (c0 :: rest).length ∧
        (c0 :: rest).getD (i - (k - 1)) [] ≠ [] ∧
        r ≤ ((c0 :: rest).getD (i - (k - 1)) []).length := by
      intro i hi
      rw [List.mem_range'] at hi
      obtain ⟨j, hj, rfl⟩ := hi
      have hilt : k + 1 * j < (c0 :: rest).length := by omega
      have hik : k + 1 * j - (k - 1) < (c0 :: rest).length := by omega
      have hgd : (c0 :: rest).getD (k + 1 * j - (k - 1)) []
          = (c0 :: rest)[k + 1 * j - (k - 1)] := by
        rw [List.getD_eq_getElem?_getD, List.getElem?_eq_getElem hik]
        rfl
      obtain ⟨hne', hle'⟩ := hall _ (List.getElem_mem hik)
      exact ⟨hilt, by rw [hgd]; exact hne', by rw [hgd]; exact hle'⟩
    obtain ⟨s, hs, hsne⟩ := omGo_ne r k (c0 :: rest) (List.range' k ((c0 :: rest).length - k))
      _ last0 hseg hcond
    refine ⟨s, ?_, hsne⟩
    simp only [concatenate_other_months, hc0, hd, hcand, hlast0]
    exact hs

/-- Witness for the amended C10 at a concrete overlapping chain, `r = 1`. -/
theorem stitching_defined_witness :
    1 ≤ 1 ∧ 1 < exA2.length ∧ (∀ c ∈ ([exA2, exB2] : List Series), c ≠ [] ∧ 1 ≤ c.length) ∧
    ((∃ s, concatenate_front_month 1 [exA2, exB2] = some s ∧ s ≠ []) ∧
     (∀ k, 2 ≤ k → k ≤ ([exA2, exB2] : List Series).length →
       ∀ d, indexNeg 1 exA2 = some d →
       (([exA2, exB2] : List Series).getD (k - 1) []).filter (fun x => x.1 < d) ≠ [] →
       ∃ s, concatenate_other_months 1 k [exA2, exB2] = some s ∧ s ≠ [])) :=
  ⟨by decide, by decide, by decide,
    stitching_defined 1 exA2 [exB2] (by decide) (by decide) (by decide)⟩

/-- C4: the slope routine filters each snapshot row to its non-zero
entries preserving the original order (a sublist of the row), pairs the
j-th surviving price with the days entry at ordinal position j (the
days-row prefix, not the original rank positions), and returns the fitted
coefficient on days of an intercept OLS of price on days: together with
some intercept it minimises the sum of squared residuals over the paired
samples. -/
theorem vix_slope_is_ols_fit (row days : List ℚ)
    (hne : open_contracts row ≠ [])
    (hlen : (open_contracts row).length ≤ days.length)
    (hD : 0 < nQ (fitPts row days) * sumXX (fitPts row days)
        - sumX (fitPts row days) * sumX (fitPts row days)) :
    (open_contracts row).Sublist row ∧
    (fitPts row days).map Prod.snd = open_contracts row ∧
    (fitPts row days).map Prod.fst = open_contracts_days row days ∧
    ∃ b, gen_vix_slope_row row days = some b ∧
      ∃ a, ∀ a' b', ssr (fitPts row days) a b ≤ ssr (fitPts row days) a' b' := by
  have hdlen : (open_contracts_days row days).length = (open_contracts row).length := by
    rw [open_contracts_days, List.length_take]
    exact inf_eq_left.mpr hlen
  refine ⟨List.filter_sublist row, ?_, ?_,
    olsSlope (fitPts row days), ?_, ols_slope_min _ hD⟩
  · exact List.map_snd_zip _ _ (le_of_eq hdlen.symm)
  · exact List.map_fst_zip _ _ (le_of_eq hdlen)
  · simp only [gen_vix_slope_row, if_neg hne]

theorem fitPts_example_denom_pos :
    0 < nQ (fitPts [10, 0, 20, 30] [0, 30, 60, 90])
        * sumXX (fitPts [10, 0, 20, 30] [0, 30, 60, 90])
      - sumX (fitPts [10, 0, 20, 30] [0, 30, 60, 90])
        * sumX (fitPts [10, 0, 20, 30] [0, 30, 60, 90]) := by
  norm_num [fitPts, open_contracts, open_contracts_days, nQ, sumX, sumXX]

/-- Witness for C4 at a concrete snapshot with a filtered-out rank. -/
theorem vix_slope_is_ols_fit_witness :
    open_contracts [10, 0, 20, 30] ≠ [] ∧
    (open_contracts [10, 0, 20, 30]).length ≤ ([0, 30, 60, 90] : List ℚ).length ∧
    (0 < nQ (fitPts [10, 0, 20, 30] [0, 30, 60, 90])
        * sumXX (fitPts [10, 0, 20, 30] [0, 30, 60, 90])
      - sumX (fitPts [10, 0, 20, 30] [0, 30, 60, 90])
        * sumX (fitPts [10, 0, 20, 30] [0, 30, 60, 90])) ∧
    ((open_contracts [10, 0, 20, 30]).Sublist [10, 0, 20, 30] ∧
     (fitPts [10, 0, 20, 30] [0, 30, 60, 90]).map Prod.snd
        = open_contracts [10, 0, 20, 30] ∧
     (fitPts [10, 0, 20, 30] [0, 30, 60, 90]).map Prod.fst
        = open_contracts_days [10, 0, 20, 30] [0, 30, 60, 90] ∧
     ∃ b, gen_vix_slope_row [10, 0, 20, 30] [0, 30, 60, 90] = some b ∧
       ∃ a, ∀ a' b', ssr (fitPts [10, 0, 20, 30] [0, 30, 60, 90]) a b
          ≤ ssr (fitPts [10, 0, 20, 30] [0, 30, 60, 90]) a' b') :=
  ⟨by decide, by decide, fitPts_example_denom_pos,
    vix_slope_is_ols_fit [10, 0, 20, 30] [0, 30, 60, 90]
      (by decide) (by decide) fitPts_example_denom_pos⟩

/-- C5 (code-bug evidence): at a snapshot with exactly one valid price the
slope routine silently records the degenerate-fit slope `0` (sklearn's
centred one-sample fit) rather than raising any `InsufficientPoints`
condition, and at a snapshot with no valid price the fit raises
(`none` — a `ValueError` that aborts the whole run, not a per-date
missing slope). -/
theorem insufficient_points_silently_zero :
    gen_vix_slope_row [5, 0, 0] [7, 30, 60] = some 0 ∧
    gen_vix_slope_row [0, 0] [7, 30] = none := by
  constructor
  · have hne : open_contracts ([5, 0, 0] : List ℚ) ≠ [] := by decide
    simp only [gen_vix_slope_row, if_neg hne]
    norm_num [fitPts, open_contracts, open_contracts_days, olsSlope, nQ,
      sumX, sumY, sumXX, sumXY]
  · have h0 : open_contracts ([0, 0] : List ℚ) = [] := by decide
    simp [gen_vix_slope_row, h0]

/-- C9: the yield-curve slope routine is the same OLS estimator applied to
the fixed treasury day-count vector {30, 91, 182, 365, 730, 1095, 1825,
2555, 3650, 7300, 10950} with no filtering — every yield entry of the row
participates, paired with that vector — and on rows without zeros it
coincides with the term-structure slope routine. -/
theorem rates_slope_refines_vix_estimator (row : List ℚ) (h : row.length = 11) :
    treasury_days = [30, 91, 182, 365, 730, 1095, 1825, 2555, 3650, 7300, 10950] ∧
    gen_rates_slope_row row treasury_days treasury_days.length
      = some (olsSlope (treasury_days.zip row)) ∧
    (treasury_days.zip row).map Prod.snd = row ∧
    ((∀ x ∈ row, x ≠ 0) →
      gen_rates_slope_row row treasury_days treasury_days.length
        = gen_vix_slope_row row treasury_days) := by
  have htl : treasury_days.length = 11 := rfl
  have htake_row : row.take treasury_days.length = row := by
    rw [htl, ← h]
    exact List.take_length row
  have htake_t : treasury_days.take treasury_days.length = treasury_days :=
    List.take_length _
  have hrne : row ≠ [] := by
    intro hc
    rw [hc] at h
    simp at h
  refine ⟨by decide, ?_, ?_, ?_⟩
  · simp only [gen_rates_slope_row, htake_row, htake_t, if_neg hrne]
  · exact List.map_snd_zip _ _ (le_of_eq (by rw [htl, h]))
  · intro h0
    have hoc : open_contracts row = row :=
      List.filter_eq_self.mpr (fun a ha => decide_eq_true (h0 a ha))
    have hocd : open_contracts_days row treasury_days = treasury_days := by
      rw [open_contracts_days, hoc, h, ← htl, List.take_length]
    simp only [gen_rates_slope_row, gen_vix_slope_row, htake_row, htake_t,
      if_neg hrne, hoc, fitPts, hocd]

/-- Witness for C9 at a concrete 11-entry yield row. -/
theorem rates_slope_refines_vix_estimator_witness :
    ([1, 2, 3, 4, 5, 6, 7, 8, 9, 10, 11] : List ℚ).length = 11 ∧
    (treasury_days = [30, 91, 182, 365, 730, 1095, 1825, 2555, 3650, 7300, 10950] ∧
     gen_rates_slope_row [1, 2, 3, 4, 5, 6, 7, 8, 9, 10, 11] treasury_days
        treasury_days.length
       = some (olsSlope (treasury_days.zip [1, 2, 3, 4, 5, 6, 7, 8, 9, 10, 11])) ∧
     (treasury_days.zip ([1, 2, 3, 4, 5, 6, 7, 8, 9, 10, 11] : List ℚ)).map Prod.snd
       = ([1, 2, 3, 4, 5, 6, 7, 8, 9, 10, 11] : List ℚ) ∧
     ((∀ x ∈ ([1, 2, 3, 4, 5, 6, 7, 8, 9, 10, 11] : List ℚ), x ≠ 0) →
       gen_rates_slope_row [1, 2, 3, 4, 5, 6, 7, 8, 9, 10, 11] treasury_days
          treasury_days.length
         = gen_vix_slope_row [1, 2, 3, 4, 5, 6, 7, 8, 9, 10, 11] treasury_days)) :=
  ⟨by decide, rates_slope_refines_vix_estimator [1, 2, 3, 4, 5, 6, 7, 8, 9, 10, 11]
    (by decide)⟩

theorem count_decEq_eq_count (a : Ident) (l : List Ident) :
    @List.count Ident instBEqOfDecidableEq a l = List.count a l := by
  induction l with
  | nil => rfl
  | cons x xs ih =>
    rw [@List.count_cons Ident instBEqOfDecidableEq a x xs, List.count_cons, ih]
    by_cases hxa : x = a
    · subst hxa; simp
    · simp [hxa]

def exIdBad : Ident := [78, 79, 84, 65, 68, 65, 84, 69, 33, 33]

/-- C7 counterexample: on an identifier whose trailing 10 characters
(`NOTADATE!!`) do not parse as a date, chain construction does not fail —
it returns the ordered chain containing that identifier (the source never
parses the substring during ordering). -/
theorem malformed_identifier_no_failure :
    parsesAsDate (suffix10 exIdBad) = false ∧
    order_contracts_based_on_dates [exIdBad] = [exIdBad] :=
  ⟨by decide, by decide⟩

/-- C7 (amended): chain construction performs no date validation and never
fails: whenever the extracted trailing substrings are pairwise distinct the
produced ordered chain is a permutation of the input identifiers —
including identifiers whose substring is not a date. -/
theorem order_contracts_total_perm (idents : List Ident)
    (hnd : (idents.map suffix10).Nodup) :
    (order_contracts_based_on_dates idents).Perm idents := by
  rw [List.perm_iff_count]
  intro a
  rw [count_decEq_eq_count, count_decEq_eq_count, count_order_contracts]
  by_cases hmem : a ∈ idents
  · have h1 : List.count (suffix10 a) (idents.map suffix10) = 1 := by
      rw [← count_decEq_eq_count]
      exact List.count_eq_one_of_mem hnd (List.mem_map_of_mem suffix10 hmem)
    rw [h1, one_mul]
  · rw [List.count_eq_zero.mpr hmem, mul_zero]

def exIdA : Ident := [65, 50, 48, 50, 49, 45, 48, 49, 45, 50, 48]

def exIdB : Ident := [66, 50, 48, 50, 49, 45, 48, 49, 45, 50, 48]

/-- Witness for the amended C7: a chain with one well-formed and one
malformed identifier is reordered into a permutation, with no failure. -/
theorem order_contracts_total_perm_witness :
    (([exIdA, exIdBad] : List Ident).map suffix10).Nodup ∧
    (order_contracts_based_on_dates [exIdA, exIdBad]).Perm [exIdA, exIdBad] :=
  ⟨by decide, order_contracts_total_perm [exIdA, exIdBad] (by decide)⟩

/-- C8 counterexample: two distinct contracts embedding the same
expiration date `2021-01-20` are not reported as an error — chain
construction produces an ordered chain containing both of them (twice
each, since the duplicated date is matched twice). -/
theorem duplicate_expiration_no_failure :
    suffix10 exIdA = suffix10 exIdB ∧ exIdA ≠ exIdB ∧
    order_contracts_based_on_dates [exIdA, exIdB] = [exIdA, exIdB, exIdA, exIdB] :=
  ⟨by decide, by decide, by decide⟩

/-- C8 (amended): duplicate expirations are not detected: whenever two
distinct identifiers share their trailing substring, each of them occurs
at least twice in the produced chain (once per occurrence of the shared
date), so an ordered chain containing both contracts — with duplicated
entries — is produced and no error is raised. -/
theorem duplicate_expiration_kept_twice {idents : List Ident} {a b : Ident}
    (ha : a ∈ idents) (hb : b ∈ idents) (hab : a ≠ b)
    (hs : suffix10 a = suffix10 b) :
    2 ≤ List.count a (order_contracts_based_on_dates idents) := by
  rw [count_order_contracts]
  have h1 : 1 ≤ List.count a idents := List.one_le_count_iff.mpr ha
  have hp1 := List.perm_cons_erase ha
  have hb' : b ∈ @List.erase Ident instBEqOfDecidableEq idents a :=
    (@List.mem_erase_of_ne Ident instBEqOfDecidableEq
      (inferInstance : @LawfulBEq Ident instBEqOfDecidableEq) b a idents
      (fun hc => hab hc.symm)).mpr hb
  have hp2 := List.perm_cons_erase hb'
  have hpa : (idents.map suffix10).Perm
      (suffix10 a :: (@List.erase Ident instBEqOfDecidableEq idents a).map suffix10) := by
    have h := hp1.map suffix10
    simpa using h
  have hpb : ((@List.erase Ident instBEqOfDecidableEq idents a).map suffix10).Perm
      (suffix10 b :: (@List.erase Ident instBEqOfDecidableEq
        (@List.erase Ident instBEqOfDecidableEq idents a) b).map suffix10) := by
    have h := hp2.map suffix10
    simpa using h
  have hperm := hpa.trans (hpb.cons (suffix10 a))
  have h2 : 2 ≤ List.count (suffix10 a) (idents.map suffix10) := by
    rw [perm_count_ident hperm]
    simp only [List.map_cons, List.count_cons, hs, beq_self_eq_true, if_true]
    omega
  calc (2 : ℕ) = 2 * 1 := rfl
    _ ≤ List.count (suffix10 a) (idents.map suffix10) * List.count a idents :=
        Nat.mul_le_mul h2 h1

/-- Witness for the amended C8 at the concrete duplicated pair. -/
theorem duplicate_expiration_kept_twice_witness :
    exIdA ∈ ([exIdA, exIdB] : List Ident) ∧ exIdB ∈ ([exIdA, exIdB] : List Ident) ∧
    exIdA ≠ exIdB ∧ suffix10 exIdA = suffix10 exIdB ∧
    2 ≤ List.count exIdA (order_contracts_based_on_dates [exIdA, exIdB]) :=
  ⟨by decide, by decide, by decide, by decide,
    @duplicate_expiration_kept_twice [exIdA, exIdB] exIdA exIdB
      (by decide) (by decide) (by decide) (by decide)⟩

def exC6Ordered : List VContract :=
  [⟨4, [(1, 0), (2, 0), (3, 0), (4, 0)]⟩,
   ⟨7, [(4, 0), (5, 0), (6, 0), (7, 0)]⟩,
   ⟨10, [(7, 0), (8, 0), (9, 0), (10, 0)]⟩,
   ⟨12, [(10, 0), (11, 0), (12, 0)]⟩]

def exC6MergedIdx : List ℕ := [1, 2, 3, 4, 5, 6, 7, 8, 9, 10, 11, 12]

def exC6Days : List (ℕ × List ℤ) :=
  [(1, [0, 3]), (2, [0, 2]), (3, [0, 1]), (4, [0, 3]), (5, [0, 2]), (6, [0, 1])]

theorem gen_vix_slope_row_ex1 :
    gen_vix_slope_row [11, 12] ([0, 3] : List ℚ) = some (1/3) := by
  have hne : open_contracts ([11, 12] : List ℚ) ≠ [] := by decide
  simp only [gen_vix_slope_row, if_neg hne]
  norm_num [fitPts, open_contracts, open_contracts_days, olsSlope, nQ,
    sumX, sumY, sumXX, sumXY]

theorem gen_vix_slope_row_ex2 :
    gen_vix_slope_row [12, 10] ([0, 2] : List ℚ) = some (-1) := by
  have hne : open_contracts ([12, 10] : List ℚ) ≠ [] := by decide
  simp only [gen_vix_slope_row, if_neg hne]
  norm_num [fitPts, open_contracts, open_contracts_days, olsSlope, nQ,
    sumX, sumY, sumXX, sumXY]

theorem gen_vix_slope_row_ex3 :
    gen_vix_slope_row [12, 10] ([0, 1] : List ℚ) = some (-2) := by
  have hne : open_contracts ([12, 10] : List ℚ) ≠ [] := by decide
  simp only [gen_vix_slope_row, if_neg hne]
  norm_num [fitPts, open_contracts, open_contracts_days, olsSlope, nQ,
    sumX, sumY, sumXX, sumXY]

/-- C6 counterexample: on a concrete four-contract chain with max rank 1
and `r = 1`, the calendar computes days rows only for merged dates 1..6
(the loop stops `maxRank + 1` contracts early, so merged date 8 has no
days row at all), and the slope driver pairs rows by position: with the
merged table reduced to dates 1 and 3 (date 2 dropped by the pipeline),
the slope recorded for date 3 is `-1`, computed from the days row `[0, 2]`
that the calendar produced **for date 2**, while date 3's own days row
`[0, 1]` yields `-2`. -/
theorem days_alignment_counterexample :
    extract_pseudo_exp_date_dict exC6Ordered exC6MergedIdx 1
      = some [(4, 4), (7, 7), (10, 10), (12, 12)] ∧
    extract_days_to_expiry exC6Ordered exC6MergedIdx
      [(4, 4), (7, 7), (10, 10), (12, 12)] 1 = some exC6Days ∧
    8 ∈ exC6MergedIdx ∧ exC6Days.lookup 8 = none ∧
    gen_vix_curve_slopes [(1, [11, 12]), (3, [12, 10])] (exC6Days.map Prod.snd)
      = some [(1, 1/3), (3, -1)] ∧
    exC6Days.lookup 3 = some [0, 1] ∧
    gen_vix_slope_row [12, 10] ([0, 1] : List ℚ) = some (-2) ∧
    ((-1 : ℚ)) ≠ -2 := by
  refine ⟨by decide, by decide, by decide, by decide, ?_, by decide,
    gen_vix_slope_row_ex3, by decide⟩
  have hrange : List.range ([(1, [11, 12]), (3, [12, 10])] : List (ℕ × List ℚ)).length
      = [0, 1] := by decide
  simp only [gen_vix_curve_slopes, hrange, List.mapM_cons, List.mapM_nil]
  norm_num [exC6Days, gen_vix_slope_row_ex1, gen_vix_slope_row_ex2]

/-- C6 (amended): the slope driver pairs merged row `i` with days row `i`
by position; whenever the merged table's date sequence agrees
position-by-position with the days matrix's key sequence (and each fit is
defined), every date's slope is computed from exactly the days row keyed
by that date. -/
theorem gen_slopes_date_aligned (mergedRows : List (ℕ × List ℚ))
    (daysAssoc : List (ℕ × List ℤ))
    (hlen : mergedRows.length ≤ daysAssoc.length)
    (hdates : ∀ i, i < mergedRows.length →
      (daysAssoc.getD i default).1 = (mergedRows.getD i default).1)
    (hok : ∀ i, i < mergedRows.length →
      ∃ s, gen_vix_slope_row (mergedRows.getD i default).2
        ((daysAssoc.getD i default).2.map (fun z => (z : ℚ))) = some s) :
    ∃ out, gen_vix_curve_slopes mergedRows (daysAssoc.map Prod.snd) = some out ∧
      out.length = mergedRows.length ∧
      ∀ i, i < mergedRows.length →
        ∃ s, out[i]? = some ((mergedRows.getD i default).1, s) ∧
          gen_vix_slope_row (mergedRows.getD i default).2
            ((daysAssoc.getD i default).2.map (fun z => (z : ℚ))) = some s ∧
          (daysAssoc.getD i default).1 = (mergedRows.getD i default).1 := by
  classical
  have hsel : ∀ i, ∃ s, i < mergedRows.length →
      gen_vix_slope_row (mergedRows.getD i default).2
        ((daysAssoc.getD i default).2.map (fun z => (z : ℚ))) = some s := by
    intro i
    by_cases hi : i < mergedRows.length
    · obtain ⟨s, hs⟩ := hok i hi
      exact ⟨s, fun _ => hs⟩
    · exact ⟨0, fun hc => absurd hc hi⟩
  choose sf hsf using hsel
  have hmap : ∀ i ∈ List.range mergedRows.length,
      (do
        let pr ← mergedRows[i]?
        let dr ← (daysAssoc.map Prod.snd)[i]?
        let s ← gen_vix_slope_row pr.2 (dr.map (fun z => (z : ℚ)))
        pure (pr.1, s)) = some ((mergedRows.getD i default).1, sf i) := by
    intro i hi
    have hilt : i < mergedRows.length := List.mem_range.mp hi
    have hpr : mergedRows[i]? = some (mergedRows.getD i default) := by
      rw [List.getD_eq_getElem?_getD, List.getElem?_eq_getElem hilt]
      rfl
    have hda : i < daysAssoc.length := lt_of_lt_of_le hilt hlen
    have hdr : (daysAssoc.map Prod.snd)[i]? = some (daysAssoc.getD i default).2 := by
      rw [List.getElem?_map, List.getD_eq_getElem?_getD, List.getElem?_eq_getElem hda]
      rfl
    rw [hpr, hdr]
    simp only [Option.bind_eq_bind, Option.some_bind]
    rw [hsf i hilt]
    simp
  have hmm := mapM_eq_map _ (fun i => ((mergedRows.getD i default).1, sf i))
    (List.range mergedRows.length) hmap
  refine ⟨(List.range mergedRows.length).map
      (fun i => ((mergedRows.getD i default).1, sf i)), hmm, by simp, ?_⟩
  intro i hi
  refine ⟨sf i, ?_, hsf i hi, hdates i hi⟩
  rw [List.getElem?_map, List.getElem?_range hi]
  rfl

theorem gen_vix_slope_row_ex1c :
    gen_vix_slope_row [11, 12] (([0, 3] : List ℤ).map (fun z => (z : ℚ)))
      = some (1/3) := by
  have h : (([0, 3] : List ℤ).map (fun z => (z : ℚ))) = ([0, 3] : List ℚ) := by norm_num
  rw [h]
  exact gen_vix_slope_row_ex1

theorem gen_vix_slope_row_ex2c :
    gen_vix_slope_row [12, 10] (([0, 2] : List ℤ).map (fun z => (z : ℚ)))
      = some (-1) := by
  have h : (([0, 2] : List ℤ).map (fun z => (z : ℚ))) = ([0, 2] : List ℚ) := by norm_num
  rw [h]
  exact gen_vix_slope_row_ex2

/-- Witness for the amended C6 at a concrete aligned pair of tables. -/
theorem gen_slopes_date_aligned_witness :
    ([(1, [11, 12]), (2, [12, 10])] : List (ℕ × List ℚ)).length
      ≤ ([(1, [0, 3]), (2, [0, 2])] : List (ℕ × List ℤ)).length ∧
    (∃ out, gen_vix_curve_slopes [(1, [11, 12]), (2, [12, 10])]
        (([(1, [0, 3]), (2, [0, 2])] : List (ℕ × List ℤ)).map Prod.snd) = some out ∧
      out.length = ([(1, [11, 12]), (2, [12, 10])] : List (ℕ × List ℚ)).length ∧
      ∀ i, i < ([(1, [11, 12]), (2, [12, 10])] : List (ℕ × List ℚ)).length →
        ∃ s, out[i]? = some ((([(1, [11, 12]), (2, [12, 10])]
            : List (ℕ × List ℚ)).getD i default).1, s) ∧
          gen_vix_slope_row (([(1, [11, 12]), (2, [12, 10])]
              : List (ℕ × List ℚ)).getD i default).2
            ((([(1, [0, 3]), (2, [0, 2])] : List (ℕ × List ℤ)).getD i default).2.map
              (fun z => (z : ℚ))) = some s ∧
          (([(1, [0, 3]), (2, [0, 2])] : List (ℕ × List ℤ)).getD i default).1
            = (([(1, [11, 12]), (2, [12, 10])] : List (ℕ × List ℚ)).getD i default).1) :=
  ⟨by decide,
    gen_slopes_date_aligned [(1, [11, 12]), (2, [12, 10])] [(1, [0, 3]), (2, [0, 2])]
      (by decide) (by decide)
      (fun i hi =>
        match i, hi with
        | 0, _ => ⟨1/3, gen_vix_slope_row_ex1c⟩
        | 1, _ => ⟨-1, gen_vix_slope_row_ex2c⟩
        | (n + 2), hi => absurd hi (Nat.not_lt.mpr (Nat.le_add_left 2 n)))⟩

end DMS
